import Mathlib

/-!
Verification of the six-degrees search program (`degrees.py`).

The development shallowly embeds the program: the global tables built by
`load_data`, the name-resolution function `person_id_for_name`, the
`Node` record, the two frontier disciplines (`StackFrontier` /
`QueueFrontier`), the neighbor resolver `neighbors_for_person`, and the
breadth-first search `shortest_path`.  Python dictionaries become
association lists, Python sets become lists with membership-guarded
insertion, exceptions become explicit `crash` / `Except.error` outcomes,
and the `while True` loop becomes a fuel-indexed recursion (`none`
modelling non-termination; it is proved below that the chosen fuel always
suffices, so the embedding is total on the loop).
-/

/-- Association-list lookup, modelling Python dict indexing `d[k]`. -/
def lookupA {β : Type} (k : String) : List (String × β) → Option β
  | [] => none
  | (k2, v) :: rest => if k = k2 then some v else lookupA k rest

/-- Association-list store, modelling Python dict assignment `d[k] = v`
(overwrites in place, appends when the key is new). -/
def updateA {β : Type} (k : String) (v : β) : List (String × β) → List (String × β)
  | [] => [(k, v)]
  | (k2, v2) :: rest => if k = k2 then (k, v) :: rest else (k2, v2) :: updateA k v rest

/-- Python `str.lower()`: lowercase every character (character-list form of
`String.toLower`, chosen so that the kernel can evaluate it). -/
def strLower (s : String) : String :=
  String.mk (s.data.map Char.toLower)

/-- Python `set.add`: insert unless already present. -/
def addElem (l : List String) (x : String) : List String :=
  if x ∈ l then l else l ++ [x]

/-- Value stored in the `people` table: name, birth, set of movie ids. -/
structure PersonRec where
  name : String
  birth : String
  movies : List String
deriving DecidableEq

/-- Value stored in the `movies` table: title, year, set of star ids. -/
structure MovieRec where
  title : String
  year : String
  stars : List String
deriving DecidableEq

/-- The three global tables `names`, `people`, `movies` of the program. -/
structure Tables where
  names : List (String × List String)
  people : List (String × PersonRec)
  movies : List (String × MovieRec)
deriving DecidableEq

/-- One row of `people.csv`. -/
structure PersonRow where
  id : String
  name : String
  birth : String

/-- One row of `movies.csv`. -/
structure MovieRow where
  id : String
  title : String
  year : String

/-- One row of `stars.csv`. -/
structure StarRow where
  person_id : String
  movie_id : String

/-- Effect of one `people.csv` row in `load_data`: store the person record
(with an empty movie set) and register the lowercased name. -/
def loadPerson (T : Tables) (r : PersonRow) : Tables :=
  let p2 := updateA r.id (PersonRec.mk r.name r.birth []) T.people
  match lookupA (strLower r.name) T.names with
  | none => Tables.mk (updateA (strLower r.name) [r.id] T.names) p2 T.movies
  | some ids => Tables.mk (updateA (strLower r.name) (addElem ids r.id) T.names) p2 T.movies

/-- Effect of one `movies.csv` row in `load_data`. -/
def loadMovie (T : Tables) (r : MovieRow) : Tables :=
  Tables.mk T.names T.people (updateA r.id (MovieRec.mk r.title r.year []) T.movies)

/-- Effect of one `stars.csv` row in `load_data`.  The source wraps the two
dictionary updates in a single try/except-KeyError-pass block: an unknown
person id aborts before any update, but an unknown movie id aborts after the
person's movie set was already extended, leaving a dangling movie reference. -/
def loadStar (T : Tables) (r : StarRow) : Tables :=
  match lookupA r.person_id T.people with
  | none => T
  | some pr =>
    let T1 := Tables.mk T.names
      (updateA r.person_id (PersonRec.mk pr.name pr.birth (addElem pr.movies r.movie_id)) T.people)
      T.movies
    match lookupA r.movie_id T1.movies with
    | none => T1
    | some mr =>
      Tables.mk T1.names T1.people
        (updateA r.movie_id (MovieRec.mk mr.title mr.year (addElem mr.stars r.person_id)) T1.movies)

/-- `load_data`: fold the three CSV files into the three tables. -/
def load_data (ps : List PersonRow) (ms : List MovieRow) (ss : List StarRow) : Tables :=
  ss.foldl loadStar (ms.foldl loadMovie (ps.foldl loadPerson (Tables.mk [] [] [])))

/-- `person_id_for_name`.  The interactive `input()` of the ambiguous branch
becomes the `userInput` argument.  The unambiguous branch returns
`names[name].pop()`, which removes the element from the global set; popping an
already emptied set raises `KeyError`, modelled by `Except.error`. -/
def person_id_for_name (T : Tables) (userInput : String) (nm : String) :
    Except Unit (Option String × Tables) :=
  let low := strLower nm
  match lookupA low T.names with
  | none => Except.ok (none, T)
  | some ids =>
    if ids.length > 1 then
      if userInput ∈ ids then Except.ok (some userInput, T) else Except.ok (none, T)
    else
      match ids with
      | [] => Except.error ()
      | x :: rest => Except.ok (some x, Tables.mk (updateA low rest T.names) T.people T.movies)

/-- Search-tree node: `Node(state, parent, action)`; the root has
`parent = None` and `action = None`. -/
inductive Node where
  | root (state : String)
  | child (state : String) (action : String) (parent : Node)
deriving DecidableEq

/-- The `state` attribute of a node. -/
def Node.state : Node → String
  | Node.root s => s
  | Node.child s _ _ => s

/-- Path reconstruction of `shortest_path`: walk parent references collecting
`(action, state)` pairs, then reverse, so the result runs root → leaf. -/
def Node.path : Node → List (String × String)
  | Node.root _ => []
  | Node.child s a p => Node.path p ++ [(a, s)]

/-- `Frontier.add`: append the node at the end of the list. -/
def frontierAdd (fr : List Node) (n : Node) : List Node :=
  fr ++ [n]

/-- `Frontier.contains_state`. -/
def containsState (fr : List Node) (s : String) : Bool :=
  fr.any (fun n => n.state == s)

/-- `StackFrontier.remove`: raise on an empty frontier, otherwise take the
most recently added node and drop it from the list. -/
def StackFrontier.remove (fr : List Node) : Except String (Node × List Node) :=
  match fr.getLast? with
  | none => Except.error "empty frontier"
  | some n => Except.ok (n, fr.dropLast)

/-- `QueueFrontier.remove`: raise on an empty frontier, otherwise take the
earliest added node and drop it from the list. -/
def QueueFrontier.remove (fr : List Node) : Except String (Node × List Node) :=
  match fr with
  | [] => Except.error "empty frontier"
  | n :: rest => Except.ok (n, rest)

/-- The inner loops of `neighbors_for_person`: for each movie id, look the
movie up (`KeyError`, i.e. `none`, when unknown) and pair it with each of its
stars. -/
def starsPairs (T : Tables) : List String → Option (List (String × String))
  | [] => some []
  | m :: rest =>
    match lookupA m T.movies with
    | none => none
    | some mr =>
      match starsPairs T rest with
      | none => none
      | some l => some (mr.stars.map (fun q => (m, q)) ++ l)

/-- `neighbors_for_person`: all `(movie_id, person_id)` pairs one hop away;
`none` models the `KeyError` raised on an unknown person or movie id. -/
def neighbors_for_person (T : Tables) (pid : String) : Option (List (String × String)) :=
  match lookupA pid T.people with
  | none => none
  | some pr => starsPairs T pr.movies

/-- The inner `for movie_id, person_id in neighbors` loop of `shortest_path`:
skip states already in the frontier or explored, return the reconstructed path
(`Sum.inl`) when the fresh child is the target, otherwise add the child and
continue, yielding the final frontier (`Sum.inr`). -/
def expand (t : String) (node : Node) (ex : List String) :
    List (String × String) → List Node → Sum (List (String × String)) (List Node)
  | [], fr => Sum.inr fr
  | (m, u) :: rest, fr =>
    if containsState fr u = true ∨ u ∈ ex then
      expand t node ex rest fr
    else if u = t then
      Sum.inl (Node.path (Node.child u m node))
    else
      expand t node ex rest (frontierAdd fr (Node.child u m node))

/-- Observable outcomes of one run of `shortest_path`: a returned path, the
`None` ("no path") return, or an uncaught `KeyError` from the neighbor
resolver. -/
inductive BfsOut where
  | found (p : List (String × String))
  | noPath
  | crash
deriving DecidableEq

/-- The `while True` loop of `shortest_path`, fuel-indexed; `none` means the
fuel ran out.  Alongside the outcome it returns the final explored set, which
records every state ever added to it (states are only ever prepended). -/
def bfsAux (T : Tables) (t : String) : Nat → List Node → List String → Option (BfsOut × List String)
  | 0, _, _ => none
  | fuel + 1, frontier, explored =>
    match frontier with
    | [] => some (BfsOut.noPath, explored)
    | node :: rest =>
      match neighbors_for_person T node.state with
      | none => some (BfsOut.crash, node.state :: explored)
      | some nbrs =>
        match expand t node (node.state :: explored) nbrs rest with
        | Sum.inl p => some (BfsOut.found p, node.state :: explored)
        | Sum.inr fr2 => bfsAux T t fuel fr2 (node.state :: explored)

/-- Every state the search can ever place on the frontier: the source plus
every star of every movie.  Its length bounds the number of loop iterations. -/
def allStates (T : Tables) (s : String) : List String :=
  s :: (T.movies.map (fun mv => mv.2.stars)).flatten

/-- `shortest_path` with the ghost explored set kept in the result. -/
def shortest_pathEx (T : Tables) (s t : String) : Option (BfsOut × List String) :=
  bfsAux T t ((allStates T s).length + 1) [Node.root s] []

/-- `shortest_path(source_id, target_id)`. -/
def shortest_path (T : Tables) (s t : String) : Option BfsOut :=
  (shortest_pathEx T s t).map Prod.fst

/-- One hop of the implicit graph: movie `m` is in `p`'s movie set and `q`
stars in `m` (both table lookups succeeding). -/
def hop (T : Tables) (p m q : String) : Prop :=
  ∃ pr mr, lookupA p T.people = some pr ∧ m ∈ pr.movies ∧
    lookupA m T.movies = some mr ∧ q ∈ mr.stars

/-- A walk of exactly `n` hops exists from `p` to `q`. -/
def reachN (T : Tables) : Nat → String → String → Prop
  | 0, p, q => p = q
  | n + 1, p, q => ∃ m r, hop T p m r ∧ reachN T n r q

/-- The list of `(movie, person)` pairs is a hop-by-hop valid walk that starts
at `p` and ends at `q`. -/
def validWalkFrom (T : Tables) : String → List (String × String) → String → Prop
  | p, [], q => p = q
  | p, (m, r) :: rest, q => hop T p m r ∧ validWalkFrom T r rest q

/-- Executable store consistency: every movie id held by a person is a key of
`movies`, and every star of a movie is a key of `people`. -/
def ConsistentB (T : Tables) : Bool :=
  T.people.all (fun pv => pv.2.movies.all (fun m => (lookupA m T.movies).isSome)) &&
  T.movies.all (fun mv => mv.2.stars.all (fun q => (lookupA q T.people).isSome))

/-- Propositional form of `ConsistentB`. -/
def Consistent (T : Tables) : Prop :=
  ConsistentB T = true

instance (T : Tables) : Decidable (Consistent T) :=
  inferInstanceAs (Decidable (ConsistentB T = true))

/-- States of the nodes currently on a frontier. -/
def statesOf (fr : List Node) : List String :=
  fr.map Node.state

/-- Frontier operations as issued by a client: interleaved adds and removes. -/
inductive QOp where
  | add (n : Node)
  | remove

/-- Run a sequence of operations against a `QueueFrontier` holding `q`,
returning the final frontier and the removed nodes in removal order; `none`
models the "empty frontier" exception escaping. -/
def runQueue : List QOp → List Node → Option (List Node × List Node)
  | [], q => some (q, [])
  | QOp.add n :: rest, q => runQueue rest (frontierAdd q n)
  | QOp.remove :: rest, q =>
    match QueueFrontier.remove q with
    | Except.error _ => none
    | Except.ok (n, q2) =>
      match runQueue rest q2 with
      | none => none
      | some (fq, outs) => some (fq, n :: outs)

/-- The nodes added by a sequence of operations, in order. -/
def addsOf : List QOp → List Node
  | [] => []
  | QOp.add n :: rest => n :: addsOf rest
  | QOp.remove :: rest => addsOf rest

/-- The number of removes in a sequence of operations. -/
def removesOf : List QOp → Nat
  | [] => 0
  | QOp.add _ :: rest => removesOf rest
  | QOp.remove :: rest => removesOf rest + 1

/-- No prefix of the operations removes more nodes than were available
(starting from a frontier of the given size). -/
def noUnderflow : Nat → List QOp → Prop
  | _, [] => True
  | k, QOp.add _ :: rest => noUnderflow (k + 1) rest
  | k, QOp.remove :: rest => 0 < k ∧ noUnderflow (k - 1) rest

/-- Fixture: a consistent loaded store with a 2-hop chain 1 — 2 — 3. -/
def Tgood : Tables :=
  load_data
    [PersonRow.mk "1" "Alice" "1970", PersonRow.mk "2" "Bob" "1971", PersonRow.mk "3" "Carol" "1972"]
    [MovieRow.mk "10" "FilmOne" "1999", MovieRow.mk "20" "FilmTwo" "2000"]
    [StarRow.mk "1" "10", StarRow.mk "2" "10", StarRow.mk "2" "20", StarRow.mk "3" "20"]

/-- Fixture: a loaded store whose first stars row references the unknown movie
"99"; the row is only half dropped, leaving "99" dangling in person 1's movie
set. -/
def Tbad : Tables :=
  load_data
    [PersonRow.mk "1" "Alice" "1970", PersonRow.mk "2" "Bob" "1971"]
    [MovieRow.mk "10" "FilmOne" "1999"]
    [StarRow.mk "1" "99", StarRow.mk "1" "10", StarRow.mk "2" "10"]

/-- Fixture: a consistent loaded store where person 1 has no movies, so person
2 is unreachable from person 1. -/
def Tdisc : Tables :=
  load_data
    [PersonRow.mk "1" "Alice" "1970", PersonRow.mk "2" "Bob" "1971"]
    [MovieRow.mk "10" "FilmOne" "1999"]
    [StarRow.mk "2" "10"]


/-- A successful dict lookup means the pair is in the table. -/
theorem lookupA_mem {β : Type} (k : String) (v : β) :
    ∀ l : List (String × β), lookupA k l = some v → (k, v) ∈ l := by
  intro l
  induction l with
  | nil => intro h; simp [lookupA] at h
  | cons a rest ih =>
    intro h
    obtain ⟨k2, v2⟩ := a
    simp only [lookupA] at h
    by_cases hk : k = k2
    · rw [if_pos hk] at h
      injection h with h
      subst hk; subst h
      exact List.mem_cons_self _ _
    · rw [if_neg hk] at h
      exact List.mem_cons_of_mem _ (ih h)

/-- In a consistent store every movie id held by a person is a movie key. -/
theorem consistent_movie {T : Tables} (hC : Consistent T) {p : String} {pr : PersonRec}
    (hp : lookupA p T.people = some pr) {m : String} (hm : m ∈ pr.movies) :
    (lookupA m T.movies).isSome = true := by
  have h := hC
  simp only [Consistent, ConsistentB, Bool.and_eq_true, List.all_eq_true] at h
  exact h.1 (p, pr) (lookupA_mem p pr _ hp) m hm

/-- In a consistent store every star of a movie is a people key. -/
theorem consistent_star {T : Tables} (hC : Consistent T) {m : String} {mr : MovieRec}
    (hm : lookupA m T.movies = some mr) {q : String} (hq : q ∈ mr.stars) :
    (lookupA q T.people).isSome = true := by
  have h := hC
  simp only [Consistent, ConsistentB, Bool.and_eq_true, List.all_eq_true] at h
  exact h.2 (m, mr) (lookupA_mem m mr _ hm) q hq

/-- `contains_state` answers membership of the state in the frontier. -/
theorem containsState_iff (fr : List Node) (s : String) :
    containsState fr s = true ↔ s ∈ statesOf fr := by
  simp [containsState, statesOf, List.any_eq_true, List.mem_map]

/-- Membership description of the pair list built by `starsPairs`. -/
theorem starsPairs_mem (T : Tables) :
    ∀ ml l, starsPairs T ml = some l → ∀ m q,
    ((m, q) ∈ l ↔ ∃ mr, m ∈ ml ∧ lookupA m T.movies = some mr ∧ q ∈ mr.stars) := by
  intro ml
  induction ml with
  | nil =>
    intro l h m q
    simp only [starsPairs] at h
    injection h with h
    subst h
    simp
  | cons a rest ih =>
    intro l h m q
    simp only [starsPairs] at h
    cases hA : lookupA a T.movies with
    | none => rw [hA] at h; cases h
    | some mr =>
      rw [hA] at h
      cases hR : starsPairs T rest with
      | none => rw [hR] at h; cases h
      | some l2 =>
        rw [hR] at h
        injection h with h
        subst h
        constructor
        · intro hm
          rcases List.mem_append.mp hm with hm | hm
          · rcases List.mem_map.mp hm with ⟨q0, hq0, heq⟩
            have ha : a = m := congrArg Prod.fst heq
            have hq : q0 = q := congrArg Prod.snd heq
            subst ha; subst hq
            exact ⟨mr, List.mem_cons_self _ _, hA, hq0⟩
          · rcases (ih l2 hR m q).mp hm with ⟨mr2, hml, h1, h2⟩
            exact ⟨mr2, List.mem_cons_of_mem _ hml, h1, h2⟩
        · rintro ⟨mr2, hml, h1, h2⟩
          rcases List.mem_cons.mp hml with heq | hml
          · subst heq
            rw [hA] at h1
            injection h1 with h1
            subst h1
            exact List.mem_append.mpr (Or.inl (List.mem_map.mpr ⟨q, h2, rfl⟩))
          · exact List.mem_append.mpr (Or.inr ((ih l2 hR m q).mpr ⟨mr2, hml, h1, h2⟩))

/-- The neighbor list of a person contains exactly the one-hop pairs. -/
theorem neighbors_mem {T : Tables} {pid : String} {l : List (String × String)}
    (h : neighbors_for_person T pid = some l) (m q : String) :
    ((m, q) ∈ l ↔ hop T pid m q) := by
  simp only [neighbors_for_person] at h
  cases hp : lookupA pid T.people with
  | none => rw [hp] at h; cases h
  | some pr =>
    rw [hp] at h
    rw [starsPairs_mem T pr.movies l h m q]
    constructor
    · rintro ⟨mr, hml, h1, h2⟩
      exact ⟨pr, mr, hp, hml, h1, h2⟩
    · rintro ⟨pr2, mr, hp2, hml, h1, h2⟩
      rw [hp] at hp2
      injection hp2 with hp2
      subst hp2
      exact ⟨mr, hml, h1, h2⟩

/-- `starsPairs` succeeds when every listed movie id is a movie key. -/
theorem starsPairs_isSome (T : Tables) :
    ∀ ml, (∀ m ∈ ml, (lookupA m T.movies).isSome = true) →
    (starsPairs T ml).isSome = true := by
  intro ml
  induction ml with
  | nil => intro _; simp [starsPairs]
  | cons a rest ih =>
    intro h
    simp only [starsPairs]
    cases hA : lookupA a T.movies with
    | none =>
      have := h a (List.mem_cons_self _ _)
      rw [hA] at this
      cases this
    | some mr =>
      have hr := ih (fun m hm => h m (List.mem_cons_of_mem _ hm))
      cases hR : starsPairs T rest with
      | none => rw [hR] at hr; cases hr
      | some l2 => simp

/-- The neighbor resolver succeeds on a known person in a consistent store. -/
theorem neighbors_isSome {T : Tables} (hC : Consistent T) {p : String} {pr : PersonRec}
    (hp : lookupA p T.people = some pr) :
    (neighbors_for_person T p).isSome = true := by
  simp only [neighbors_for_person, hp]
  exact starsPairs_isSome T pr.movies (fun m hm => consistent_movie hC hp hm)

/-- Extending a valid walk by one hop keeps it valid. -/
theorem validWalkFrom_append_hop (T : Tables) :
    ∀ l p q m r, validWalkFrom T p l q → hop T q m r →
    validWalkFrom T p (l ++ [(m, r)]) r := by
  intro l
  induction l with
  | nil =>
    intro p q m r hw hh
    simp only [validWalkFrom] at hw
    subst hw
    exact ⟨hh, rfl⟩
  | cons a rest ih =>
    intro p q m r hw hh
    obtain ⟨m0, r0⟩ := a
    simp only [validWalkFrom] at hw
    exact ⟨hw.1, ih r0 q m r hw.2 hh⟩

/-- A valid walk of length `n` witnesses `reachN n`. -/
theorem validWalkFrom_reachN (T : Tables) :
    ∀ l p q, validWalkFrom T p l q → reachN T l.length p q := by
  intro l
  induction l with
  | nil =>
    intro p q hw
    simp only [validWalkFrom] at hw
    simpa [reachN] using hw
  | cons a rest ih =>
    intro p q hw
    obtain ⟨m0, r0⟩ := a
    simp only [validWalkFrom] at hw
    exact ⟨m0, r0, hw.1, ih r0 q hw.2⟩

/-- Walks in a consistent store end at known people when they start at one. -/
theorem validWalkFrom_end_isSome (T : Tables) (hC : Consistent T) :
    ∀ l p q, (lookupA p T.people).isSome = true → validWalkFrom T p l q →
    (lookupA q T.people).isSome = true := by
  intro l
  induction l with
  | nil =>
    intro p q hp hw
    simp only [validWalkFrom] at hw
    subst hw
    exact hp
  | cons a rest ih =>
    intro p q hp hw
    obtain ⟨m0, r0⟩ := a
    simp only [validWalkFrom] at hw
    rcases hw.1 with ⟨pr, mr, _, _, h3, h4⟩
    exact ih r0 q (consistent_star hC h3 h4) hw.2

/-- Walks of length `n + 1` decompose at the far end. -/
theorem reachN_snoc (T : Tables) :
    ∀ n p q, reachN T (n + 1) p q ↔ ∃ v m, reachN T n p v ∧ hop T v m q := by
  intro n
  induction n with
  | zero =>
    intro p q
    simp only [reachN]
    constructor
    · rintro ⟨m, r, hh, h⟩
      subst h
      exact ⟨p, m, rfl, hh⟩
    · rintro ⟨v, m, h, hh⟩
      subst h
      exact ⟨m, q, hh, rfl⟩
  | succ n ih =>
    intro p q
    constructor
    · rintro ⟨m, r, hh, hr⟩
      rcases (ih r q).mp hr with ⟨v, m2, hv, hh2⟩
      exact ⟨v, m2, ⟨m, r, hh, hv⟩, hh2⟩
    · rintro ⟨v, m2, hv, hh2⟩
      rcases hv with ⟨m, r, hh, hr⟩
      exact ⟨m, r, hh, (ih r q).mpr ⟨v, m2, hr, hh2⟩⟩

/-- States of an appended frontier. -/
theorem statesOf_append (fr1 fr2 : List Node) :
    statesOf (fr1 ++ fr2) = statesOf fr1 ++ statesOf fr2 :=
  List.map_append _ _ _

/-- An inner loop that completes only appends fresh non-target children built
from neighbor pairs. -/
theorem expand_inr (t : String) (node : Node) (ex : List String) :
    ∀ nbrs fr fr2, expand t node ex nbrs fr = Sum.inr fr2 →
    ∃ ad, fr2 = fr ++ ad ∧ ∀ c ∈ ad, ∃ m u, (m, u) ∈ nbrs ∧ c = Node.child u m node ∧
      u ∉ ex ∧ u ≠ t ∧ u ∉ statesOf fr := by
  intro nbrs
  induction nbrs with
  | nil =>
    intro fr fr2 h
    simp only [expand] at h
    injection h with h
    subst h
    exact ⟨[], by simp, by simp⟩
  | cons a rest ih =>
    intro fr fr2 h
    obtain ⟨m, u⟩ := a
    simp only [expand] at h
    by_cases h1 : containsState fr u = true ∨ u ∈ ex
    · rw [if_pos h1] at h
      rcases ih fr fr2 h with ⟨ad, hfr, hall⟩
      refine ⟨ad, hfr, fun c hc => ?_⟩
      rcases hall c hc with ⟨m2, u2, hm, hrest⟩
      exact ⟨m2, u2, List.mem_cons_of_mem _ hm, hrest⟩
    · rw [if_neg h1] at h
      push_neg at h1
      by_cases h2 : u = t
      · rw [if_pos h2] at h; cases h
      · rw [if_neg h2] at h
        rcases ih _ fr2 h with ⟨ad, hfr, hall⟩
        refine ⟨Node.child u m node :: ad, ?_, ?_⟩
        · rw [hfr]; simp [frontierAdd]
        · intro c hc
          rcases List.mem_cons.mp hc with heq | hc
          · subst heq
            exact ⟨m, u, List.mem_cons_self _ _, rfl, h1.2, h2,
              fun hs => h1.1 ((containsState_iff fr u).mpr hs)⟩
          · rcases hall c hc with ⟨m2, u2, hm, hcu, hex, hne, hst⟩
            refine ⟨m2, u2, List.mem_cons_of_mem _ hm, hcu, hex, hne, fun hs => hst ?_⟩
            rw [frontierAdd, statesOf_append]
            exact List.mem_append_left _ hs

/-- An inner loop that returns a path found the target among the neighbor
pairs, not yet explored, and reconstructed the parent chain plus final hop. -/
theorem expand_inl (t : String) (node : Node) (ex : List String) :
    ∀ nbrs fr p, expand t node ex nbrs fr = Sum.inl p →
    ∃ m, (m, t) ∈ nbrs ∧ t ∉ ex ∧ p = Node.path node ++ [(m, t)] := by
  intro nbrs
  induction nbrs with
  | nil => intro fr p h; simp only [expand] at h; cases h
  | cons a rest ih =>
    intro fr p h
    obtain ⟨m, u⟩ := a
    simp only [expand] at h
    by_cases h1 : containsState fr u = true ∨ u ∈ ex
    · rw [if_pos h1] at h
      rcases ih fr p h with ⟨m2, hm, ht, hp⟩
      exact ⟨m2, List.mem_cons_of_mem _ hm, ht, hp⟩
    · rw [if_neg h1] at h
      push_neg at h1
      by_cases h2 : u = t
      · rw [if_pos h2] at h
        injection h with h
        subst h2
        exact ⟨m, List.mem_cons_self _ _, h1.2, by rw [← h]; simp [Node.path]⟩
      · rw [if_neg h2] at h
        rcases ih _ p h with ⟨m2, hm, ht, hp⟩
        exact ⟨m2, List.mem_cons_of_mem _ hm, ht, hp⟩

/-- The inner loop preserves joint freshness of frontier states and explored
states. -/
theorem expand_inr_nodup (t : String) (node : Node) (ex : List String) :
    ∀ nbrs fr fr2, (statesOf fr ++ ex).Nodup → expand t node ex nbrs fr = Sum.inr fr2 →
    (statesOf fr2 ++ ex).Nodup := by
  intro nbrs
  induction nbrs with
  | nil =>
    intro fr fr2 hnd h
    simp only [expand] at h
    injection h with h
    subst h
    exact hnd
  | cons a rest ih =>
    intro fr fr2 hnd h
    obtain ⟨m, u⟩ := a
    simp only [expand] at h
    by_cases h1 : containsState fr u = true ∨ u ∈ ex
    · rw [if_pos h1] at h; exact ih fr fr2 hnd h
    · rw [if_neg h1] at h
      push_neg at h1
      by_cases h2 : u = t
      · rw [if_pos h2] at h; cases h
      · rw [if_neg h2] at h
        apply ih _ fr2 _ h
        have hu1 : u ∉ statesOf fr := fun hs => h1.1 ((containsState_iff fr u).mpr hs)
        have hnm : u ∉ statesOf fr ++ ex := by
          intro hs
          rcases List.mem_append.mp hs with hs | hs
          · exact hu1 hs
          · exact h1.2 hs
        rw [frontierAdd, statesOf_append]
        have : statesOf [Node.child u m node] = [u] := rfl
        rw [this, List.append_assoc]
        exact List.nodup_middle.mpr (List.nodup_cons.mpr ⟨hnm, hnd⟩)

/-- After a completed inner loop every neighbor pair's person is explored or
on the resulting frontier. -/
theorem expand_inr_covers (t : String) (node : Node) (ex : List String) :
    ∀ nbrs fr fr2, expand t node ex nbrs fr = Sum.inr fr2 →
    ∀ m u, (m, u) ∈ nbrs → u ∈ ex ∨ u ∈ statesOf fr2 := by
  intro nbrs
  induction nbrs with
  | nil => intro fr fr2 h m u hm; cases hm
  | cons a rest ih =>
    intro fr fr2 h m u hm
    obtain ⟨m0, u0⟩ := a
    simp only [expand] at h
    by_cases h1 : containsState fr u0 = true ∨ u0 ∈ ex
    · rw [if_pos h1] at h
      rcases List.mem_cons.mp hm with heq | hm2
      · have hu : u = u0 := congrArg Prod.snd heq
        subst hu
        rcases h1 with h1 | h1
        · right
          rcases expand_inr t node ex rest fr fr2 h with ⟨ad, hfr, _⟩
          subst hfr
          rw [statesOf_append]
          exact List.mem_append_left _ ((containsState_iff fr u).mp h1)
        · exact Or.inl h1
      · exact ih fr fr2 h m u hm2
    · rw [if_neg h1] at h
      by_cases h2 : u0 = t
      · rw [if_pos h2] at h; cases h
      · rw [if_neg h2] at h
        rcases List.mem_cons.mp hm with heq | hm2
        · have hu : u = u0 := congrArg Prod.snd heq
          subst hu
          right
          rcases expand_inr t node ex rest _ fr2 h with ⟨ad, hfr, _⟩
          subst hfr
          rw [frontierAdd, statesOf_append, statesOf_append]
          exact List.mem_append_left _ (List.mem_append_right _ (by simp [statesOf, Node.state]))
        · exact ih _ fr2 h m u hm2

/-- Any star of a looked-up movie is among `allStates`. -/
theorem mem_allStates_of_star (T : Tables) (s m q : String) (mr : MovieRec)
    (h1 : lookupA m T.movies = some mr) (h2 : q ∈ mr.stars) : q ∈ allStates T s := by
  have hm : (m, mr) ∈ T.movies := lookupA_mem m mr _ h1
  simp only [allStates, List.mem_cons]
  right
  rw [List.mem_flatten]
  exact ⟨mr.stars, List.mem_map.mpr ⟨(m, mr), hm, rfl⟩, h2⟩

/-- The loop returns within the fuel bound: each iteration moves a fresh state
into the explored set, and all states involved come from the finite list
`allStates`. -/
theorem bfsAux_total (T : Tables) (s t : String) :
    ∀ fuel fr ex, (statesOf fr ++ ex).Nodup →
    (∀ u ∈ statesOf fr ++ ex, u ∈ allStates T s) →
    (allStates T s).length < fuel + ex.length →
    (bfsAux T t fuel fr ex).isSome = true := by
  intro fuel
  induction fuel with
  | zero =>
    intro fr ex hnd hsub hlt
    exfalso
    have h1 : ex.Nodup := hnd.of_append_right
    have h2 : ex ⊆ allStates T s := fun u hu => hsub u (List.mem_append_right _ hu)
    have := (List.subperm_of_subset h1 h2).length_le
    omega
  | succ fuel ih =>
    intro fr ex hnd hsub hlt
    cases fr with
    | nil => simp [bfsAux]
    | cons node rest =>
      cases hn : neighbors_for_person T node.state with
      | none => simp [bfsAux, hn]
      | some nbrs =>
        cases he : expand t node (node.state :: ex) nbrs rest with
        | inl p => simp [bfsAux, hn, he]
        | inr fr2 =>
          have hgoal : bfsAux T t (fuel + 1) (node :: rest) ex =
              bfsAux T t fuel fr2 (node.state :: ex) := by
            simp [bfsAux, hn, he]
          rw [hgoal]
          have hnd1 : (node.state :: (statesOf rest ++ ex)).Nodup := hnd
          have hnd2 : (statesOf rest ++ node.state :: ex).Nodup := List.nodup_middle.mpr hnd1
          rcases expand_inr t node (node.state :: ex) nbrs rest fr2 he with ⟨ad, hfr, hall⟩
          apply ih fr2 (node.state :: ex)
      
      
          · exact expand_inr_nodup t node (node.state :: ex) nbrs rest fr2 hnd2 he
          · intro u hu
            rcases List.mem_append.mp hu with hu | hu
            · subst hfr
              rw [statesOf_append] at hu
              rcases List.mem_append.mp hu with hu | hu
              · exact hsub u (by
                  apply List.mem_append_left
                  simp only [statesOf, List.map_cons]
                  exact List.mem_cons_of_mem _ hu)
              · rcases List.mem_map.mp hu with ⟨c, hc, hcs⟩
                rcases hall c hc with ⟨m, u2, hmem, hcu, _, _, _⟩
                have hu2 : u = u2 := by rw [← hcs, hcu]; rfl
                subst hu2
                rcases (neighbors_mem hn m u).mp hmem with ⟨pr, mr, _, _, h3, h4⟩
                exact mem_allStates_of_star T s m u mr h3 h4
            · rcases List.mem_cons.mp hu with hu | hu
              · subst hu
                exact hsub _ (by
                  apply List.mem_append_left
                  simp only [statesOf, List.map_cons]
                  exact List.mem_cons_self _ _)
              · exact hsub u (List.mem_append_right _ hu)
          · simp only [List.length_cons]
            omega

/-- Per-node bookkeeping for path distinctness: the chain of states recorded
in a node's path has no repetition, avoids the source, and consists of states
that are explored except possibly the node's own. -/
def PathInv (s : String) (ex : List String) (n : Node) : Prop :=
  (n.path.map Prod.snd).Nodup ∧ s ∉ n.path.map Prod.snd ∧
  ∀ u ∈ n.path.map Prod.snd, u = n.state ∨ u ∈ ex

/-- Run phase: either the source is already explored, or the search is still
at its initial configuration. -/
def Phase (s : String) (fr : List Node) (ex : List String) : Prop :=
  s ∈ ex ∨ (fr = [Node.root s] ∧ ex = [])

/-- `PathInv` is monotone in the explored set. -/
theorem PathInv_mono {s : String} {ex ex2 : List String} {n : Node}
    (h : PathInv s ex n) (hsub : ∀ u ∈ ex, u ∈ ex2) : PathInv s ex2 n :=
  ⟨h.1, h.2.1, fun u hu => (h.2.2 u hu).elim Or.inl (fun hx => Or.inr (hsub u hx))⟩

/-- In either phase, the source is explored once the head node is. -/
theorem Phase.mem_cons {s : String} {node : Node} {rest : List Node} {ex : List String}
    (hph : Phase s (node :: rest) ex) : s ∈ node.state :: ex := by
  rcases hph with hph | ⟨hfr, hex0⟩
  · exact List.mem_cons_of_mem _ hph
  · injection hfr with h1 h2
    subst h1
    exact List.mem_cons_self _ _

/-- Recorded states of a child's reconstructed path. -/
theorem child_path_snd (u m : String) (node : Node) :
    (Node.child u m node).path.map Prod.snd = node.path.map Prod.snd ++ [u] := by
  simp [Node.path]

/-- Invariant run lemma for distinctness: the final explored set never holds a
state twice, and a returned path lists pairwise-distinct states avoiding the
source. -/
theorem bfsAux_distinct (T : Tables) (s t : String) :
    ∀ fuel fr ex r exf,
    (statesOf fr ++ ex).Nodup →
    (∀ n ∈ fr, PathInv s ex n) →
    Phase s fr ex →
    bfsAux T t fuel fr ex = some (r, exf) →
    exf.Nodup ∧ ∀ p, r = BfsOut.found p → (p.map Prod.snd).Nodup ∧ s ∉ p.map Prod.snd := by
  intro fuel
  induction fuel with
  | zero => intro fr ex r exf _ _ _ h; cases h
  | succ fuel ih =>
    intro fr ex r exf hnd hpi hph h
    cases fr with
    | nil =>
      simp only [bfsAux, Option.some.injEq, Prod.mk.injEq] at h
      obtain ⟨hr, hex⟩ := h
      subst hr; subst hex
      refine ⟨hnd.of_append_right, fun p hp => BfsOut.noConfusion hp⟩
    | cons node rest =>
      have hnd1 : (node.state :: (statesOf rest ++ ex)).Nodup := hnd
      have hnd2 : (statesOf rest ++ node.state :: ex).Nodup := List.nodup_middle.mpr hnd1
      have hndex2 : (node.state :: ex).Nodup := hnd2.of_append_right
      have hs2 : s ∈ node.state :: ex := Phase.mem_cons hph
      cases hn : neighbors_for_person T node.state with
      | none =>
        simp only [bfsAux, hn, Option.some.injEq, Prod.mk.injEq] at h
        obtain ⟨hr, hex⟩ := h
        subst hr; subst hex
        refine ⟨hndex2, fun p hp => BfsOut.noConfusion hp⟩
      | some nbrs =>
        cases he : expand t node (node.state :: ex) nbrs rest with
        | inl p0 =>
          simp only [bfsAux, hn, he, Option.some.injEq, Prod.mk.injEq] at h
          obtain ⟨hr, hex⟩ := h
          subst hr; subst hex
          rcases expand_inl t node (node.state :: ex) nbrs rest p0 he with ⟨m, hmem, htex, hp0⟩
          have hpin : PathInv s ex node := hpi node (List.mem_cons_self _ _)
          have hchain : ∀ u ∈ node.path.map Prod.snd, u ∈ node.state :: ex := by
            intro u hu
            rcases hpin.2.2 u hu with hu2 | hu2
            · subst hu2; exact List.mem_cons_self _ _
            · exact List.mem_cons_of_mem _ hu2
          refine ⟨hndex2, fun p hp => ?_⟩
          have hpp : p0 = p := by injection hp
          subst hpp
          rw [hp0, List.map_append]
          constructor
          · rw [List.nodup_append]
            refine ⟨hpin.1, List.nodup_singleton _, fun a ha ha2 => ?_⟩
            have : a = t := by simpa using ha2
            subst this
            exact htex (hchain a ha)
          · intro hs
            rcases List.mem_append.mp hs with hs | hs
            · exact hpin.2.1 hs
            · have : s = t := by simpa using hs
              subst this
              exact htex hs2
        | inr fr2 =>
          have hstep : bfsAux T t (fuel + 1) (node :: rest) ex =
              bfsAux T t fuel fr2 (node.state :: ex) := by
            simp [bfsAux, hn, he]
          rw [hstep] at h
          rcases expand_inr t node (node.state :: ex) nbrs rest fr2 he with ⟨ad, hfr, hall⟩
          apply ih fr2 (node.state :: ex) r exf
        
          · exact expand_inr_nodup t node (node.state :: ex) nbrs rest fr2 hnd2 he
          · subst hfr
            intro c hc
            rcases List.mem_append.mp hc with hc | hc
            · exact PathInv_mono (hpi c (List.mem_cons_of_mem _ hc))
                (fun u hu => List.mem_cons_of_mem _ hu)
            · rcases hall c hc with ⟨m, u, hmem, hcu, hex2, hne, hst⟩
              subst hcu
              have hpin : PathInv s ex node := hpi node (List.mem_cons_self _ _)
              have hchain : ∀ w ∈ node.path.map Prod.snd, w ∈ node.state :: ex := by
                intro w hw
                rcases hpin.2.2 w hw with hw2 | hw2
                · subst hw2; exact List.mem_cons_self _ _
                · exact List.mem_cons_of_mem _ hw2
              refine ⟨?_, ?_, ?_⟩
              · rw [child_path_snd, List.nodup_append]
                refine ⟨hpin.1, List.nodup_singleton _, fun a ha ha2 => ?_⟩
                have : a = u := by simpa using ha2
                subst this
                exact hex2 (hchain a ha)
              · rw [child_path_snd]
                intro hs
                rcases List.mem_append.mp hs with hs | hs
                · exact hpin.2.1 hs
                · have : s = u := by simpa using hs
                  subst this
                  exact hex2 hs2
              · rw [child_path_snd]
                intro w hw
                rcases List.mem_append.mp hw with hw | hw
                · exact Or.inr (hchain w hw)
                · have : w = u := by simpa using hw
                  subst this
                  exact Or.inl rfl
          · exact Or.inl hs2
          · exact h

/-- The breadth-first-search loop invariant: frontier states and explored
states are jointly fresh; every frontier node carries a valid walk from the
source whose length is minimal for its state; explored states have all their
neighbors covered; the target has never been seen; and the frontier is split
into a level-`d` prefix and a level-`d + 1` suffix with every state within
distance `d` already covered. -/
structure SInv (T : Tables) (s t : String) (fr : List Node) (ex : List String) : Prop where
  nodup : (statesOf fr ++ ex).Nodup
  valid : ∀ n ∈ fr, validWalkFrom T s n.path n.state
  mindep : ∀ n ∈ fr, ∀ k, reachN T k s n.state → n.path.length ≤ k
  closed : ∀ v ∈ ex, ∀ m u, hop T v m u → u ∈ ex ∨ u ∈ statesOf fr
  tnotex : t ∉ ex
  tnotfr : t ∉ statesOf fr
  level : ∃ d fr1 fr2, fr = fr1 ++ fr2 ∧ (∀ n ∈ fr1, n.path.length = d) ∧
    (∀ n ∈ fr2, n.path.length = d + 1) ∧
    (∀ u k, k ≤ d → reachN T k s u → u ∈ ex ∨ u ∈ statesOf fr)

/-- The invariant holds at the initial configuration. -/
theorem SInv_init (T : Tables) (s t : String) (hst : s ≠ t) :
    SInv T s t [Node.root s] [] := by
  refine ⟨?_, ?_, ?_, ?_, ?_, ?_, ?_⟩
  · simp [statesOf]
  · intro n hn
    rcases List.mem_singleton.mp hn with h
    subst h
    exact rfl
  · intro n hn k hk
    rcases List.mem_singleton.mp hn with h
    subst h
    exact Nat.zero_le k
  · intro v hv; cases hv
  · simp
  · simp only [statesOf, List.map_cons, List.map_nil]
    intro hmem
    rcases List.mem_singleton.mp hmem with h
    exact hst h.symm
  · refine ⟨0, [Node.root s], [], by simp, ?_, by simp, ?_⟩
    · intro n hn
      rcases List.mem_singleton.mp hn with h
      subst h
      rfl
    · intro u k hk hr
      interval_cases k
      have : s = u := hr
      subst this
      exact Or.inr (List.mem_cons_self _ _)

/-- Normal form of the level split when the frontier is nonempty: the head
sits at the minimal level, the rest splits at the head's level, and coverage
holds up to the head's level. -/
theorem SInv_level_head {T : Tables} {s t : String} {node : Node} {rest : List Node}
    {ex : List String} (h : SInv T s t (node :: rest) ex) :
    ∃ frA frB, rest = frA ++ frB ∧
      (∀ n ∈ frA, n.path.length = node.path.length) ∧
      (∀ n ∈ frB, n.path.length = node.path.length + 1) ∧
      (∀ u k, k ≤ node.path.length → reachN T k s u →
        u ∈ ex ∨ u ∈ statesOf (node :: rest)) := by
  rcases h.level with ⟨d, fr1, fr2, hsplit, h1, h2, hcov⟩
  cases fr1 with
  | nil =>
    simp only [List.nil_append] at hsplit
    subst hsplit
    have hnode : node.path.length = d + 1 := h2 node (List.mem_cons_self _ _)
    refine ⟨rest, [], by simp, ?_, by simp, ?_⟩
    · intro n hn
      rw [h2 n (List.mem_cons_of_mem _ hn), hnode]
    · intro u k hk hr
      rcases Nat.lt_or_ge k (d + 1) with hlt | hge
      · exact hcov u k (by omega) hr
      · have hkd : k = d + 1 := by omega
        subst hkd
        rcases (reachN_snoc T d s u).mp hr with ⟨v, m, hv, hhop⟩
        have hvex : v ∈ ex := by
          rcases hcov v d (Nat.le_refl d) hv with hvex | hvfr
          · exact hvex
          · exfalso
            rcases List.mem_map.mp hvfr with ⟨nv, hnv, hnvs⟩
            have hle : nv.path.length ≤ d := h.mindep nv hnv d (by rw [hnvs]; exact hv)
            have heq : nv.path.length = d + 1 := h2 nv hnv
            omega
        exact h.closed v hvex m u hhop
  | cons n0 fr1t =>
    rw [List.cons_append] at hsplit
    injection hsplit with hh ht
    subst hh
    have hnode : node.path.length = d := h1 node (List.mem_cons_self _ _)
    subst ht
    refine ⟨fr1t, fr2, rfl, ?_, ?_, ?_⟩
    · intro n hn
      rw [h1 n (List.mem_cons_of_mem _ hn), hnode]
    · intro n hn
      rw [h2 n hn, hnode]
    · intro u k hk hr
      exact hcov u k (by omega) hr

/-- One loop iteration that neither finds the target nor crashes preserves
the invariant. -/
theorem SInv_step {T : Tables} {s t : String} {node : Node} {rest : List Node}
    {ex : List String} {nbrs : List (String × String)} {fr2 : List Node}
    (h : SInv T s t (node :: rest) ex)
    (hn : neighbors_for_person T node.state = some nbrs)
    (he : expand t node (node.state :: ex) nbrs rest = Sum.inr fr2) :
    SInv T s t fr2 (node.state :: ex) := by
  rcases SInv_level_head h with ⟨frA, frB, hrest, hdA, hdB, hcov⟩
  rcases expand_inr t node (node.state :: ex) nbrs rest fr2 he with ⟨ad, hfr, hall⟩
  have hnd1 : (node.state :: (statesOf rest ++ ex)).Nodup := h.nodup
  have hnd2 : (statesOf rest ++ node.state :: ex).Nodup := List.nodup_middle.mpr hnd1
  have hchild : ∀ c ∈ ad, ∃ m, hop T node.state m c.state ∧
      c.path = node.path ++ [(m, c.state)] ∧ c.state ∉ node.state :: ex ∧
      c.state ≠ t ∧ c.state ∉ statesOf rest := by
    intro c hc
    rcases hall c hc with ⟨m, u, hmem, hcu, hex2, hne, hst⟩
    subst hcu
    exact ⟨m, (neighbors_mem hn m u).mp hmem, by simp [Node.path, Node.state], hex2, hne, hst⟩
  have hsplit2 : statesOf fr2 = statesOf rest ++ statesOf ad := by
    rw [hfr, statesOf_append]
  refine ⟨expand_inr_nodup _ _ _ _ _ _ hnd2 he, ?_, ?_, ?_, ?_, ?_, ?_⟩
  · intro c hc
    rw [hfr] at hc
    rcases List.mem_append.mp hc with hc | hc
    · exact h.valid c (List.mem_cons_of_mem _ hc)
    · rcases hchild c hc with ⟨m, hhop, hpath, _, _, _⟩
      rw [hpath]
      exact validWalkFrom_append_hop T node.path s node.state m c.state
        (h.valid node (List.mem_cons_self _ _)) hhop
  · intro c hc k hk
    rw [hfr] at hc
    rcases List.mem_append.mp hc with hc | hc
    · exact h.mindep c (List.mem_cons_of_mem _ hc) k hk
    · rcases hchild c hc with ⟨m, hhop, hpath, hex2, hne, hst⟩
      have hlen : c.path.length = node.path.length + 1 := by
        rw [hpath]; simp
      rw [hlen]
      rcases Nat.lt_or_ge k (node.path.length + 1) with hlt | hge
      · exfalso
        rcases hcov c.state k (by omega) hk with h2 | h2
        · exact hex2 (List.mem_cons_of_mem _ h2)
        · simp only [statesOf, List.map_cons, List.mem_cons] at h2
          rcases h2 with h2 | h2
          · exact hex2 (by rw [h2]; exact List.mem_cons_self _ _)
          · exact hst h2
      · exact hge
  · intro v hv m u hhop
    rcases List.mem_cons.mp hv with hveq | hvex
    · subst hveq
      have hmem : (m, u) ∈ nbrs := (neighbors_mem hn m u).mpr hhop
      exact expand_inr_covers t node (node.state :: ex) nbrs rest fr2 he m u hmem
    · rcases h.closed v hvex m u hhop with h2 | h2
      · exact Or.inl (List.mem_cons_of_mem _ h2)
      · simp only [statesOf, List.map_cons, List.mem_cons] at h2
        rcases h2 with h2 | h2
        · exact Or.inl (by rw [h2]; exact List.mem_cons_self _ _)
        · exact Or.inr (by rw [hsplit2]; exact List.mem_append_left _ h2)
  · intro hmem
    rcases List.mem_cons.mp hmem with h2 | h2
    · exact h.tnotfr (by
        simp only [statesOf, List.map_cons, List.mem_cons]
        exact Or.inl h2)
    · exact h.tnotex h2
  · rw [hsplit2]
    intro hmem
    rcases List.mem_append.mp hmem with h2 | h2
    · exact h.tnotfr (by
        simp only [statesOf, List.map_cons, List.mem_cons]
        exact Or.inr h2)
    · rcases List.mem_map.mp h2 with ⟨c, hc, hcs⟩
      rcases hchild c hc with ⟨_, _, _, _, hne, _⟩
      exact hne hcs
  · refine ⟨node.path.length, frA, frB ++ ad, ?_, hdA, ?_, ?_⟩
    · rw [hfr, hrest, List.append_assoc]
    · intro n hn
      rcases List.mem_append.mp hn with hn | hn
      · exact hdB n hn
      · rcases hchild n hn with ⟨m, _, hpath, _, _, _⟩
        rw [hpath]; simp
    · intro u k hk hr
      rcases hcov u k hk hr with h2 | h2
      · exact Or.inl (List.mem_cons_of_mem _ h2)
      · simp only [statesOf, List.map_cons, List.mem_cons] at h2
        rcases h2 with h2 | h2
        · exact Or.inl (by rw [h2]; exact List.mem_cons_self _ _)
        · exact Or.inr (by rw [hsplit2]; exact List.mem_append_left _ h2)

/-- When the inner loop returns a path, that path is a valid walk to the
target of exactly minimal length. -/
theorem SInv_found {T : Tables} {s t : String} {node : Node} {rest : List Node}
    {ex : List String} {nbrs : List (String × String)} {p : List (String × String)}
    (h : SInv T s t (node :: rest) ex)
    (hn : neighbors_for_person T node.state = some nbrs)
    (he : expand t node (node.state :: ex) nbrs rest = Sum.inl p) :
    validWalkFrom T s p t ∧ reachN T p.length s t ∧ ∀ k, reachN T k s t → p.length ≤ k := by
  rcases SInv_level_head h with ⟨frA, frB, hrest, hdA, hdB, hcov⟩
  rcases expand_inl t node (node.state :: ex) nbrs rest p he with ⟨m, hmem, htex, hp⟩
  have hhop : hop T node.state m t := (neighbors_mem hn m t).mp hmem
  have hvw : validWalkFrom T s p t := by
    rw [hp]
    exact validWalkFrom_append_hop T node.path s node.state m t
      (h.valid node (List.mem_cons_self _ _)) hhop
  refine ⟨hvw, by
    have := validWalkFrom_reachN T p s t hvw
    exact this, fun k hk => ?_⟩
  have hlen : p.length = node.path.length + 1 := by rw [hp]; simp
  rw [hlen]
  rcases Nat.lt_or_ge k (node.path.length + 1) with hlt | hge
  · exfalso
    rcases hcov t k (by omega) hk with h2 | h2
    · exact h.tnotex h2
    · exact h.tnotfr h2
  · exact hge

/-- With an empty frontier the invariant forces every reachable state to be
explored. -/
theorem SInv_empty_unreach {T : Tables} {s t : String} {ex : List String}
    (h : SInv T s t [] ex) : ∀ k u, reachN T k s u → u ∈ ex := by
  intro k
  induction k with
  | zero =>
    intro u hu
    rcases h.level with ⟨d, fr1, fr2, _, _, _, hcov⟩
    rcases hcov u 0 (Nat.zero_le d) hu with h2 | h2
    · exact h2
    · simp [statesOf] at h2
  | succ k ih =>
    intro u hu
    rcases (reachN_snoc T k s u).mp hu with ⟨v, m, hv, hhop⟩
    rcases h.closed v (ih v hv) m u hhop with h2 | h2
    · exact h2
    · simp [statesOf] at h2

/-- Run lemma: starting from any invariant configuration, the loop never
crashes, reports "no path" only for unreachable targets, and any returned path
is a shortest valid walk. -/
theorem bfsAux_correct (T : Tables) (s t : String) (hC : Consistent T)
    (hs : (lookupA s T.people).isSome = true) :
    ∀ fuel fr ex r exf, SInv T s t fr ex →
    bfsAux T t fuel fr ex = some (r, exf) →
    (r = BfsOut.noPath → ∀ k, ¬ reachN T k s t) ∧
    (∀ p, r = BfsOut.found p →
      validWalkFrom T s p t ∧ reachN T p.length s t ∧ ∀ k, reachN T k s t → p.length ≤ k) ∧
    r ≠ BfsOut.crash := by
  intro fuel
  induction fuel with
  | zero => intro fr ex r exf _ h; cases h
  | succ fuel ih =>
    intro fr ex r exf hinv h
    cases fr with
    | nil =>
      simp only [bfsAux, Option.some.injEq, Prod.mk.injEq] at h
      obtain ⟨hr, hex⟩ := h
      subst hr
      exact ⟨fun _ k hk => hinv.tnotex (SInv_empty_unreach hinv k t hk),
        fun p hp => BfsOut.noConfusion hp, fun hcr => BfsOut.noConfusion hcr⟩
    | cons node rest =>
      have hnode : (lookupA node.state T.people).isSome = true :=
        validWalkFrom_end_isSome T hC node.path s node.state hs
          (hinv.valid node (List.mem_cons_self _ _))
      cases hn : neighbors_for_person T node.state with
      | none =>
        exfalso
        rcases Option.isSome_iff_exists.mp hnode with ⟨pr, hp⟩
        have := neighbors_isSome hC hp
        rw [hn] at this
        cases this
      | some nbrs =>
        cases he : expand t node (node.state :: ex) nbrs rest with
        | inl p0 =>
          simp only [bfsAux, hn, he, Option.some.injEq, Prod.mk.injEq] at h
          obtain ⟨hr, hex⟩ := h
          subst hr
          have hfd := SInv_found hinv hn he
          refine ⟨fun hnp => BfsOut.noConfusion hnp, fun p hp => ?_,
            fun hcr => BfsOut.noConfusion hcr⟩
          have hpp : p0 = p := by injection hp
          subst hpp
          exact hfd
        | inr fr2 =>
          have hstep : bfsAux T t (fuel + 1) (node :: rest) ex =
              bfsAux T t fuel fr2 (node.state :: ex) := by
            simp [bfsAux, hn, he]
          rw [hstep] at h
          exact ih fr2 (node.state :: ex) r exf (SInv_step hinv hn he) h

/-- The chosen fuel always suffices: the embedded loop always returns. -/
theorem shortest_pathEx_isSome (T : Tables) (s t : String) :
    (shortest_pathEx T s t).isSome = true := by
  apply bfsAux_total T s t ((allStates T s).length + 1) [Node.root s] []
  · simp [statesOf]
  · intro u hu
    simp only [statesOf, List.map_cons, List.map_nil, List.append_nil,
      List.mem_singleton] at hu
    subst hu
    simp [allStates, Node.state]
  · simp

/-- Searching for the source itself: the source enters the explored set at the
first dequeue and the goal test only fires on unexplored children, so the run
can only end with "no path" (on a consistent store with a known source). -/
theorem bfsAux_self (T : Tables) (s : String) (hC : Consistent T)
    (hs : (lookupA s T.people).isSome = true) :
    ∀ fuel fr ex r exf,
    (∀ n ∈ fr, validWalkFrom T s n.path n.state) →
    Phase s fr ex →
    bfsAux T s fuel fr ex = some (r, exf) → r = BfsOut.noPath := by
  intro fuel
  induction fuel with
  | zero => intro fr ex r exf _ _ h; cases h
  | succ fuel ih =>
    intro fr ex r exf hvalid hph h
    cases fr with
    | nil =>
      simp only [bfsAux, Option.some.injEq, Prod.mk.injEq] at h
      exact h.1.symm
    | cons node rest =>
      have hnode : (lookupA node.state T.people).isSome = true :=
        validWalkFrom_end_isSome T hC node.path s node.state hs
          (hvalid node (List.mem_cons_self _ _))
      cases hn : neighbors_for_person T node.state with
      | none =>
        exfalso
        rcases Option.isSome_iff_exists.mp hnode with ⟨pr, hp⟩
        have := neighbors_isSome hC hp
        rw [hn] at this
        cases this
      | some nbrs =>
        cases he : expand s node (node.state :: ex) nbrs rest with
        | inl p0 =>
          exfalso
          rcases expand_inl s node (node.state :: ex) nbrs rest p0 he with ⟨m, _, htex, _⟩
          exact htex (Phase.mem_cons hph)
        | inr fr2 =>
          have hstep : bfsAux T s (fuel + 1) (node :: rest) ex =
              bfsAux T s fuel fr2 (node.state :: ex) := by
            simp [bfsAux, hn, he]
          rw [hstep] at h
          apply ih fr2 (node.state :: ex) r exf ?_ (Or.inl (Phase.mem_cons hph)) h
          rcases expand_inr s node (node.state :: ex) nbrs rest fr2 he with ⟨ad, hfr, hall⟩
          subst hfr
          intro c hc
          rcases List.mem_append.mp hc with hc | hc
          · exact hvalid c (List.mem_cons_of_mem _ hc)
          · rcases hall c hc with ⟨m, u, hmem, hcu, _, _, _⟩
            subst hcu
            exact validWalkFrom_append_hop T node.path s node.state m u
              (hvalid node (List.mem_cons_self _ _)) ((neighbors_mem hn m u).mp hmem)

/-- A found path always records at least one hop: the goal test fires only on
children, whose reconstructed path ends with their own pair. -/
theorem bfsAux_found_ne_nil (T : Tables) (t : String) :
    ∀ fuel fr ex p exf, bfsAux T t fuel fr ex = some (BfsOut.found p, exf) → p ≠ [] := by
  intro fuel
  induction fuel with
  | zero => intro fr ex p exf h; cases h
  | succ fuel ih =>
    intro fr ex p exf h
    cases fr with
    | nil => simp [bfsAux] at h
    | cons node rest =>
      cases hn : neighbors_for_person T node.state with
      | none => simp [bfsAux, hn] at h
      | some nbrs =>
        cases he : expand t node (node.state :: ex) nbrs rest with
        | inl p0 =>
          simp only [bfsAux, hn, he, Option.some.injEq, Prod.mk.injEq] at h
          have hpp : p0 = p := by injection h.1
          subst hpp
          rcases expand_inl t node (node.state :: ex) nbrs rest p0 he with ⟨m, _, _, hp⟩
          rw [hp]
          simp
        | inr fr2 =>
          have hstep : bfsAux T t (fuel + 1) (node :: rest) ex =
              bfsAux T t fuel fr2 (node.state :: ex) := by
            simp [bfsAux, hn, he]
          rw [hstep] at h
          exact ih fr2 (node.state :: ex) p exf h

/-- Composition: reachable distinct target on a consistent store yields a
returned path that is a shortest valid walk. -/
theorem shortest_path_found_of_reach (T : Tables) (s t : String) (hC : Consistent T)
    (hs : (lookupA s T.people).isSome = true) (hst : s ≠ t) (n : Nat) (hr : reachN T n s t) :
    ∃ p, shortest_path T s t = some (BfsOut.found p) ∧ validWalkFrom T s p t ∧
      reachN T p.length s t ∧ ∀ k, reachN T k s t → p.length ≤ k := by
  have htot := shortest_pathEx_isSome T s t
  rcases Option.isSome_iff_exists.mp htot with ⟨rx, hrun⟩
  obtain ⟨r, exf⟩ := rx
  have hrun2 : bfsAux T t ((allStates T s).length + 1) [Node.root s] [] = some (r, exf) := hrun
  have hcor := bfsAux_correct T s t hC hs _ _ _ r exf (SInv_init T s t hst) hrun2
  cases r with
  | noPath => exact absurd hr (hcor.1 rfl n)
  | crash => exact absurd rfl hcor.2.2
  | found p =>
    refine ⟨p, ?_, hcor.2.1 p rfl⟩
    simp [shortest_path, hrun]

/-- Composition: unreachable target on a consistent store with known source
yields the "no path" return, with no exception. -/
theorem shortest_path_noPath_of_unreach (T : Tables) (s t : String) (hC : Consistent T)
    (hs : (lookupA s T.people).isSome = true) (hun : ∀ k, ¬ reachN T k s t) :
    shortest_path T s t = some BfsOut.noPath := by
  have hst : s ≠ t := fun h => hun 0 h
  have htot := shortest_pathEx_isSome T s t
  rcases Option.isSome_iff_exists.mp htot with ⟨rx, hrun⟩
  obtain ⟨r, exf⟩ := rx
  have hrun2 : bfsAux T t ((allStates T s).length + 1) [Node.root s] [] = some (r, exf) := hrun
  have hcor := bfsAux_correct T s t hC hs _ _ _ r exf (SInv_init T s t hst) hrun2
  cases r with
  | noPath => simp [shortest_path, hrun]
  | crash => exact absurd rfl hcor.2.2
  | found p => exact absurd (hcor.2.1 p rfl).2.1 (hun p.length)

/-- Composition: searching from an entity to itself returns "no path". -/
theorem shortest_path_self (T : Tables) (x : String) (hC : Consistent T)
    (hx : (lookupA x T.people).isSome = true) :
    shortest_path T x x = some BfsOut.noPath := by
  have htot := shortest_pathEx_isSome T x x
  rcases Option.isSome_iff_exists.mp htot with ⟨rx, hrun⟩
  obtain ⟨r, exf⟩ := rx
  have hrun2 : bfsAux T x ((allStates T x).length + 1) [Node.root x] [] = some (r, exf) := hrun
  have hr := bfsAux_self T x hC hx _ _ _ r exf ?_ (Or.inr ⟨rfl, rfl⟩) hrun2
  · subst hr
    simp [shortest_path, hrun]
  · intro c hc
    rcases List.mem_singleton.mp hc with h
    subst h
    exact rfl

/-- An unknown source id makes the very first expansion raise `KeyError`. -/
theorem shortest_path_crash_unknown_source (T : Tables) (s t : String)
    (hs : lookupA s T.people = none) : shortest_path T s t = some BfsOut.crash := by
  have hn : neighbors_for_person T (Node.root s).state = none := by
    simp [neighbors_for_person, Node.state, hs]
  simp [shortest_path, shortest_pathEx, bfsAux, hn]

/-- In a consistent store an unknown entity id is unreachable from any known
source. -/
theorem unreach_unknown_target (T : Tables) (hC : Consistent T) (s t : String)
    (hs : (lookupA s T.people).isSome = true) (ht : lookupA t T.people = none) :
    ∀ k, ¬ reachN T k s t := by
  intro k hk
  cases k with
  | zero =>
    have hst : s = t := hk
    subst hst
    rw [ht] at hs
    cases hs
  | succ k =>
    rcases (reachN_snoc T k s t).mp hk with ⟨v, m, _, hhop⟩
    rcases hhop with ⟨pr, mr, _, _, h3, h4⟩
    have := consistent_star hC h3 h4
    rw [ht] at this
    cases this

/-- The queue-discipline frontier serves nodes in exactly first-added order:
for any operation sequence with no underflow, the removed nodes are the first
`removesOf ops` added nodes in order, and the remaining frontier holds the
rest in order. -/
theorem runQueue_fifo :
    ∀ ops q, noUnderflow q.length ops →
    runQueue ops q = some ((q ++ addsOf ops).drop (removesOf ops),
      (q ++ addsOf ops).take (removesOf ops)) := by
  intro ops
  induction ops with
  | nil => intro q h; simp [runQueue, addsOf, removesOf]
  | cons op rest ih =>
    intro q h
    cases op with
    | add n =>
      have h2 : noUnderflow (q ++ [n]).length rest := by
        rw [List.length_append, List.length_singleton]
        exact h
      have h3 := ih (q ++ [n]) h2
      simp only [runQueue, frontierAdd, addsOf, removesOf]
      rw [h3]
      simp
    | remove =>
      have h2 : 0 < q.length ∧ noUnderflow (q.length - 1) rest := h
      cases q with
      | nil => exact absurd h2.1 (by simp)
      | cons n0 q0 =>
        have h3 : noUnderflow q0.length rest := by
          have := h2.2
          simpa using this
        have h4 := ih q0 h3
        simp only [runQueue, QueueFrontier.remove, h4, addsOf, removesOf]
        simp [List.cons_append, List.drop_succ_cons, List.take_succ_cons]

/-- Fixture operation sequence for the queue-discipline frontier. -/
def sampleOps : List QOp :=
  [QOp.add (Node.root "a"), QOp.add (Node.root "b"), QOp.remove,
   QOp.add (Node.root "c"), QOp.remove]

/-- C1 counterexample: `Tbad` is a store loaded by `load_data`; persons "1"
and "2" are present and distinct and "2" is reachable from "1" in one hop via
movie "10", yet `shortest_path` raises `KeyError` (crash) instead of returning
a path, because the half-dropped stars row left the dangling movie "99" in
person 1's movie set. -/
theorem shortest_path_crashes_on_loaded_store :
    (∃ n, reachN Tbad n "1" "2") ∧ "1" ≠ "2" ∧
    (lookupA "1" Tbad.people).isSome = true ∧ (lookupA "2" Tbad.people).isSome = true ∧
    shortest_path Tbad "1" "2" = some BfsOut.crash := by
  refine ⟨⟨1, ?_⟩, by decide, by decide, by decide, by decide⟩
  show ∃ m r, hop Tbad "1" m r ∧ reachN Tbad 0 r "2"
  refine ⟨"10", "2", ?_, rfl⟩
  exact ⟨PersonRec.mk "Alice" "1970" ["99", "10"], MovieRec.mk "FilmOne" "1999" ["1", "2"],
    by decide, by decide, by decide, by decide⟩

/-- C1 (amended): on a consistent store (every held movie id a movie key,
every star a people key), for source and target present in `people`, distinct,
with the target reachable, `shortest_path` returns a path that is a valid walk
from the source ending at the target whose length is exactly the graph
distance (it is attained and minimal). -/
theorem shortest_path_bfs_optimal (T : Tables) (s t : String) (hC : Consistent T)
    (hs : (lookupA s T.people).isSome = true) (ht : (lookupA t T.people).isSome = true)
    (hst : s ≠ t) (n : Nat) (hr : reachN T n s t) :
    ∃ p, shortest_path T s t = some (BfsOut.found p) ∧ validWalkFrom T s p t ∧
      reachN T p.length s t ∧ ∀ k, reachN T k s t → p.length ≤ k :=
  shortest_path_found_of_reach T s t hC hs hst n hr

/-- C1 witness: the amended theorem applied to the concrete consistent store
`Tgood` with the 2-hop pair 1 → 3. -/
theorem shortest_path_bfs_optimal_witness :
    Consistent Tgood ∧ ("1" : String) ≠ "3" ∧
    (∃ p, shortest_path Tgood "1" "3" = some (BfsOut.found p) ∧
      validWalkFrom Tgood "1" p "3" ∧ reachN Tgood p.length "1" "3" ∧
      ∀ k, reachN Tgood k "1" "3" → p.length ≤ k) := by
  refine ⟨by decide, by decide, ?_⟩
  apply shortest_path_bfs_optimal Tgood "1" "3" (by decide) (by decide) (by decide)
    (by decide) 2
  show ∃ m r, hop Tgood "1" m r ∧ reachN Tgood 1 r "3"
  refine ⟨"10", "2", ?_, ?_⟩
  · exact ⟨PersonRec.mk "Alice" "1970" ["10"], MovieRec.mk "FilmOne" "1999" ["1", "2"],
      by decide, by decide, by decide, by decide⟩
  · show ∃ m r, hop Tgood "2" m r ∧ reachN Tgood 0 r "3"
    refine ⟨"20", "3", ?_, rfl⟩
    exact ⟨PersonRec.mk "Bob" "1971" ["10", "20"], MovieRec.mk "FilmTwo" "2000" ["2", "3"],
      by decide, by decide, by decide, by decide⟩

/-- C2 counterexample: with a known source and the unknown target "zz",
`shortest_path` on the consistent loaded store `Tgood` returns the plain
"no path" outcome rather than reporting a lookup failure. -/
theorem shortest_path_unknown_target_counterexample :
    lookupA "zz" Tgood.people = none ∧ shortest_path Tgood "1" "zz" = some BfsOut.noPath :=
  ⟨by decide, by decide⟩

/-- C2 (amended): an unknown source id makes `shortest_path` raise `KeyError`
on the first expansion (after having started the search from the invalid
state); an unknown target id with a known source on a consistent store makes
it run to frontier exhaustion and return `None`, the same outcome as
"no path". -/
theorem shortest_path_unknown_id_behavior (T : Tables) (s t : String) :
    (lookupA s T.people = none → shortest_path T s t = some BfsOut.crash) ∧
    (Consistent T → (lookupA s T.people).isSome = true → lookupA t T.people = none →
      shortest_path T s t = some BfsOut.noPath) := by
  constructor
  · intro hs
    exact shortest_path_crash_unknown_source T s t hs
  · intro hC hs ht
    exact shortest_path_noPath_of_unreach T s t hC hs (unreach_unknown_target T hC s t hs ht)

/-- C2 witness: both amended behaviors observed on the concrete store. -/
theorem shortest_path_unknown_id_behavior_witness :
    shortest_path Tgood "zz" "1" = some BfsOut.crash ∧
    shortest_path Tgood "1" "zz" = some BfsOut.noPath :=
  ⟨(shortest_path_unknown_id_behavior Tgood "zz" "1").1 (by decide),
   (shortest_path_unknown_id_behavior Tgood "1" "zz").2 (by decide) (by decide) (by decide)⟩

/-- C3 counterexample: `shortest_path(x, x)` on the concrete store returns
`None` ("no path"), not the empty path claimed by the specification. -/
theorem shortest_path_self_counterexample :
    shortest_path Tgood "1" "1" = some BfsOut.noPath ∧
    shortest_path Tgood "1" "1" ≠ some (BfsOut.found []) :=
  ⟨by decide, by decide⟩

/-- C3 (amended): for every entity present in a consistent store,
`shortest_path(x, x)` returns `None` (the "no path" outcome): the source is
explored at the first dequeue, so no child with the source's state — and hence
no path — is ever produced. -/
theorem shortest_path_self_noPath (T : Tables) (x : String) (hC : Consistent T)
    (hx : (lookupA x T.people).isSome = true) :
    shortest_path T x x = some BfsOut.noPath :=
  shortest_path_self T x hC hx

/-- C3 witness: the amended theorem applied at a concrete entity. -/
theorem shortest_path_self_noPath_witness :
    shortest_path Tgood "2" "2" = some BfsOut.noPath :=
  shortest_path_self_noPath Tgood "2" (by decide) (by decide)

/-- C4: on a finite consistent store with the source present, the
`while True` loop of `shortest_path` terminates: the fuel
`(allStates).length + 1`, which bounds the number of iterations because every
dequeued state enters the growing duplicate-free explored set, always
suffices. -/
theorem shortest_path_terminates (T : Tables) (s t : String) (hC : Consistent T)
    (hs : (lookupA s T.people).isSome = true) :
    (shortest_path T s t).isSome = true := by
  rcases Option.isSome_iff_exists.mp (shortest_pathEx_isSome T s t) with ⟨rx, hrun⟩
  simp [shortest_path, hrun]

/-- C4 witness: termination observed on the concrete store. -/
theorem shortest_path_terminates_witness : (shortest_path Tgood "1" "2").isSome = true :=
  shortest_path_terminates Tgood "1" "2" (by decide) (by decide)

/-- C5: for entities both present in a consistent store with the target
unreachable from the source, `shortest_path` returns `None` (the "no path"
outcome) and never raises: the crash outcome is excluded. -/
theorem shortest_path_disconnected_noPath (T : Tables) (s t : String) (hC : Consistent T)
    (hs : (lookupA s T.people).isSome = true) (ht : (lookupA t T.people).isSome = true)
    (hun : ∀ k, ¬ reachN T k s t) :
    shortest_path T s t = some BfsOut.noPath :=
  shortest_path_noPath_of_unreach T s t hC hs hun

/-- C5 witness: the disconnected pair 1, 2 of the store `Tdisc`, with the
unreachability hypothesis discharged by inspecting person 1's empty movie
set. -/
theorem shortest_path_disconnected_noPath_witness :
    shortest_path Tdisc "1" "2" = some BfsOut.noPath := by
  apply shortest_path_disconnected_noPath Tdisc "1" "2" (by decide) (by decide) (by decide)
  intro k hk
  cases k with
  | zero => exact absurd (show ("1" : String) = "2" from hk) (by decide)
  | succ k =>
    rcases hk with ⟨m, r, hhop, _⟩
    rcases hhop with ⟨pr, mr, h1, h2, _, _⟩
    have hval : lookupA "1" Tdisc.people = some (PersonRec.mk "Alice" "1970" []) := by decide
    rw [hval] at h1
    injection h1 with h1
    subst h1
    cases h2

/-- C6 (code bug): `person_id_for_name` with an unambiguous name pops the id
from the global `names` set, mutating the table that the specification
declares read-only after load; a second identical lookup would hit an empty
set and raise `KeyError`. -/
theorem person_id_for_name_mutates_names :
    ∃ T2, person_id_for_name Tgood "" "Alice" = Except.ok (some "1", T2) ∧
      T2.names ≠ Tgood.names := by
  refine ⟨Tables.mk (updateA "alice" [] Tgood.names) Tgood.people Tgood.movies, rfl, by decide⟩

/-- C7: the queue-discipline frontier returns nodes in exactly first-added
order for any interleaved add/remove sequence without underflow: the removed
nodes are the first added ones in order, the rest stay queued in order. -/
theorem queueFrontier_fifo (ops : List QOp) (h : noUnderflow 0 ops) :
    runQueue ops [] =
      some ((addsOf ops).drop (removesOf ops), (addsOf ops).take (removesOf ops)) := by
  have h2 := runQueue_fifo ops [] (by simpa using h)
  simpa using h2

/-- C7 witness: a concrete interleaved sequence; removes return the first two
added nodes in order and the third stays queued. -/
theorem queueFrontier_fifo_witness :
    runQueue sampleOps [] = some ([Node.root "c"], [Node.root "a", Node.root "b"]) :=
  (queueFrontier_fifo sampleOps ⟨by decide, by decide, trivial⟩).trans (by decide)

/-- C8: in any completed run of `shortest_path` the explored set (returned in
full by `shortest_pathEx`) never received a state twice, and a returned path
lists pairwise-distinct entity ids, none equal to the source. -/
theorem shortest_path_no_repeats (T : Tables) (s t : String) (r : BfsOut) (exf : List String)
    (h : shortest_pathEx T s t = some (r, exf)) :
    exf.Nodup ∧ ∀ p, r = BfsOut.found p → (p.map Prod.snd).Nodup ∧ s ∉ p.map Prod.snd := by
  apply bfsAux_distinct T s t ((allStates T s).length + 1) [Node.root s] [] r exf ?_ ?_ ?_ h
  · simp [statesOf]
  · intro n hn
    rcases List.mem_singleton.mp hn with h2
    subst h2
    exact ⟨by simp [Node.path], by simp [Node.path], by simp [Node.path]⟩
  · exact Or.inr ⟨rfl, rfl⟩

/-- C8 witness: the concrete run 1 → 3 on `Tgood`, whose explored set is
`["2", "1"]` and whose returned path visits 2 then 3. -/
theorem shortest_path_no_repeats_witness :
    ∃ r exf, shortest_pathEx Tgood "1" "3" = some (r, exf) ∧ exf.Nodup ∧
      ∀ p, r = BfsOut.found p → (p.map Prod.snd).Nodup ∧ "1" ∉ p.map Prod.snd := by
  refine ⟨BfsOut.found [("10", "2"), ("20", "3")], ["2", "1"], by decide, ?_⟩
  exact shortest_path_no_repeats Tgood "1" "3" _ _ (by decide)

/-- C9: `remove()` on an empty frontier fails with the "empty frontier"
condition for both the stack and the queue discipline; no node is returned. -/
theorem frontier_remove_empty_fails :
    StackFrontier.remove ([] : List Node) = Except.error "empty frontier" ∧
    QueueFrontier.remove ([] : List Node) = Except.error "empty frontier" :=
  ⟨rfl, rfl⟩

/-- C10: `shortest_path` never returns the empty list: the goal test fires
only on freshly built children, whose reconstructed path contains at least
their own `(movie, person)` pair. -/
theorem shortest_path_never_empty_path (T : Tables) (s t : String) :
    shortest_path T s t ≠ some (BfsOut.found []) := by
  intro h
  simp only [shortest_path] at h
  cases hrun : shortest_pathEx T s t with
  | none => rw [hrun] at h; cases h
  | some rx =>
    obtain ⟨r, exf⟩ := rx
    rw [hrun] at h
    simp at h
    subst h
    exact bfsAux_found_ne_nil T t _ _ _ [] exf hrun rfl

/-- C10 witness: the theorem applied at a concrete store and pair. -/
theorem shortest_path_never_empty_path_witness :
    shortest_path Tgood "1" "2" ≠ some (BfsOut.found []) :=
  shortest_path_never_empty_path Tgood "1" "2"
